import Mathlib

/-!
# Verification of `json_writer` (src/json_writer.h)

Shallow embedding of the streaming JSON encoder.  Bytes are modelled as
natural numbers (the C++ code reads input through `unsigned char`, values
0..255); the output stream written to the `std::ostream` sink is modelled
as the list of bytes emitted, in order.  The encoder state consists of the
construction-time indent width (the spec's data model fixes it as a
non-negative integer), the current nesting `level_` (a C++ `int`, modelled
as `Int` since `array_end`/`object_end` decrement it unconditionally) and
the three-valued separator status `sep_status_`.

`std::setw(w)` followed by `<< ""` pads with `w` fill characters (spaces)
when `w > 0` and with none otherwise, hence the `Int.toNat` clamp in
`indentOut`.
-/

/-- The three-valued `SepStatus` enum of `json_writer`. -/
inductive SepStatus where
  | none
  | first
  | next
deriving DecidableEq, Repr

/-- The mutable state of a `json_writer`: `indent_` (fixed at construction),
`level_`, and `sep_status_`.  The sink is modelled by returning emitted
bytes alongside the new state. -/
structure WState where
  indent : Nat
  level : Int
  sep : SepStatus
deriving DecidableEq, Repr

/-- `cObjStart = '{'` -/
def cObjStart : Nat := 123
/-- `cObjEnd = '}'` -/
def cObjEnd : Nat := 125
/-- `cArrStart = '['` -/
def cArrStart : Nat := 91
/-- `cArrEnd = ']'` -/
def cArrEnd : Nat := 93
/-- `sNameSep = ": "` (colon, space) -/
def sNameSep : List Nat := [58, 32]
/-- `cValueSep = ','` -/
def cValueSep : Nat := 44
/-- `cQuote = '"'` -/
def cQuote : Nat := 34
/-- `cBackslash = '\'` -/
def cBackslash : Nat := 92
/-- `sUnicodeEsc = { '\', 'u', '0', '0' }` -/
def sUnicodeEsc : List Nat := [92, 117, 48, 48]
/-- The `sHex` table of `num_to_hex`: `'0'..'9','a'..'f'`. -/
def sHex : List Nat := [48, 49, 50, 51, 52, 53, 54, 55, 56, 57, 97, 98, 99, 100, 101, 102]

/-- `num_to_hex(n) = sHex[n]` (callers only pass `0 ≤ n < 16`). -/
def num_to_hex (n : Nat) : Nat := sHex.getD n 0

/-- The `switch (c)` body of `write_string` for a byte with `c ≤ 31 || c == 127`:
the five named two-character escapes, otherwise `sUnicodeEsc` followed by the
two hex digits `num_to_hex((c >> 4) & 0xF)`, `num_to_hex(c & 0xF)`.
(`'\b' = 8`, `'\f' = 12`, `'\n' = 10`, `'\r' = 13`, `'\t' = 9`.) -/
def ctrlEsc (c : Nat) : List Nat :=
  if c = 8 then [cBackslash, 98]
  else if c = 12 then [cBackslash, 102]
  else if c = 10 then [cBackslash, 110]
  else if c = 13 then [cBackslash, 114]
  else if c = 9 then [cBackslash, 116]
  else sUnicodeEsc ++ [num_to_hex ((c >>> 4) &&& 15), num_to_hex (c &&& 15)]

/-- The scanning loop of `write_string`.  The C++ code keeps a run-start
pointer `start` and flushes the pending run `[start, ps)` at each special
byte and once at the end; here `pending` is that run (the bytes between
`start` and the cursor) carried as an accumulator, flushed (prepended to
the output) at exactly the same points. -/
def ws_loop (pending : List Nat) : List Nat → List Nat
  | [] => pending
  | c :: rest =>
    if c = cQuote ∨ c = cBackslash then
      pending ++ [cBackslash, c] ++ ws_loop [] rest
    else if c ≤ 31 ∨ c = 127 then
      pending ++ ctrlEsc c ++ ws_loop [] rest
    else
      ws_loop (pending ++ [c]) rest

/-- `json_writer::write_string(first, last)`: opening quote, the scanned
and escaped body, closing quote. -/
def write_string (s : List Nat) : List Nat := [cQuote] ++ ws_loop [] s ++ [cQuote]

/-- `json_writer::indent()`: if `indent_` is non-zero and the separator
status is not `none`, emit `'\n'` then `std::setw(level_ * indent_) << ""`,
i.e. `max 0 (level_ * indent_)` space characters. -/
def indentOut (st : WState) : List Nat :=
  if st.indent ≠ 0 ∧ st.sep ≠ SepStatus.none then
    [10] ++ List.replicate ((st.level * (st.indent : Int)).toNat) 32
  else []

/-- `json_writer::value_sep()`: a comma when the status is `next`, then
`indent()`. -/
def valueSepOut (st : WState) : List Nat :=
  (if st.sep = SepStatus.next then [cValueSep] else []) ++ indentOut st

/-- `json_writer::array_start()`. -/
def array_start (st : WState) : WState × List Nat :=
  (⟨st.indent, st.level + 1, SepStatus.first⟩, valueSepOut st ++ [cArrStart])

/-- `json_writer::array_end()`: `level_--` happens before `indent()`. -/
def array_end (st : WState) : WState × List Nat :=
  (⟨st.indent, st.level - 1, SepStatus.next⟩,
    indentOut ⟨st.indent, st.level - 1, st.sep⟩ ++ [cArrEnd])

/-- `json_writer::object_start()`. -/
def object_start (st : WState) : WState × List Nat :=
  (⟨st.indent, st.level + 1, SepStatus.first⟩, valueSepOut st ++ [cObjStart])

/-- `json_writer::object_end()`: `level_--` happens before `indent()`. -/
def object_end (st : WState) : WState × List Nat :=
  (⟨st.indent, st.level - 1, SepStatus.next⟩,
    indentOut ⟨st.indent, st.level - 1, st.sep⟩ ++ [cObjEnd])

/-- `json_writer::name(first, last)`: separator prefix, escaped quoted
string, then `sout_.write(sNameSep, indent_ ? 2 : 1)`, status `none`. -/
def name_range (st : WState) (s : List Nat) : WState × List Nat :=
  (⟨st.indent, st.level, SepStatus.none⟩,
    valueSepOut st ++ write_string s ++ sNameSep.take (if st.indent ≠ 0 then 2 else 1))

/-- `json_writer::value(first, last)`: separator prefix, escaped quoted
string, status `next`. -/
def value_range (st : WState) (s : List Nat) : WState × List Nat :=
  (⟨st.indent, st.level, SepStatus.next⟩, valueSepOut st ++ write_string s)

/-- Decimal digits of a natural number, most significant first
(the locale-free textual conversion `sout_ << n` performs).  Structural
recursion on a fuel argument; `natDec` passes fuel `n`, which is ample
since the value shrinks by a factor of 10 per step. -/
def natDecGo : Nat → Nat → List Nat
  | 0, n => [48 + n]
  | fuel + 1, n =>
    if n < 10 then [48 + n] else natDecGo fuel (n / 10) ++ [48 + n % 10]

/-- Decimal digits of a natural number, most significant first. -/
def natDec (n : Nat) : List Nat := natDecGo n n

/-- Decimal text of an integer: optional `'-'` then the digits. -/
def intDec (n : Int) : List Nat :=
  if n < 0 then 45 :: natDec (-n).toNat else natDec n.toNat

/-- `json_writer::value(T n)` for integral `T`. -/
def value_int (st : WState) (n : Int) : WState × List Nat :=
  (⟨st.indent, st.level, SepStatus.next⟩, valueSepOut st ++ intDec n)

/-- `json_writer::value_bool(b)`: the literal `true` or `false`. -/
def value_bool (st : WState) (b : Bool) : WState × List Nat :=
  (⟨st.indent, st.level, SepStatus.next⟩,
    valueSepOut st ++ (if b then [116, 114, 117, 101] else [102, 97, 108, 115, 101]))

/-- `json_writer::value_null()`: the literal `null`. -/
def value_null (st : WState) : WState × List Nat :=
  (⟨st.indent, st.level, SepStatus.next⟩, valueSepOut st ++ [110, 117, 108, 108])

/-- `strlen`: length of the initial run of non-NUL bytes; the null-terminated
overloads pass the range `[strz, strz + strlen(strz))`, i.e. the bytes before
the first 0. -/
def strz_range (s : List Nat) : List Nat := s.takeWhile (fun b => b ≠ 0)

/-- `json_writer::name(const char* strz)` = `name(strz, strz + strlen(strz))`. -/
def name_strz (st : WState) (s : List Nat) : WState × List Nat :=
  name_range st (strz_range s)

/-- `json_writer::value(const char* strz)` = `value(strz, strz + strlen(strz))`. -/
def value_strz (st : WState) (s : List Nat) : WState × List Nat :=
  value_range st (strz_range s)

/-- `json_writer::name(const StringT&)` = `name(str.data(), str.data() + str.size())`:
the container's contents are exactly its byte list. -/
def name_string (st : WState) (s : List Nat) : WState × List Nat :=
  name_range st s

/-- `json_writer::value(const StringT&)` = `value(str.data(), str.data() + str.size())`. -/
def value_string (st : WState) (s : List Nat) : WState × List Nat :=
  value_range st s

/-- The encoder operations a caller can issue. -/
inductive Op where
  | arrayStart
  | arrayEnd
  | objectStart
  | objectEnd
  | name (s : List Nat)
  | valueStr (s : List Nat)
  | valueInt (n : Int)
  | valueBool (b : Bool)
  | valueNull
deriving DecidableEq, Repr

/-- Dispatch one operation on the writer. -/
def emit (st : WState) : Op → WState × List Nat
  | Op.arrayStart => array_start st
  | Op.arrayEnd => array_end st
  | Op.objectStart => object_start st
  | Op.objectEnd => object_end st
  | Op.name s => name_range st s
  | Op.valueStr s => value_range st s
  | Op.valueInt n => value_int st n
  | Op.valueBool b => value_bool st b
  | Op.valueNull => value_null st

/-- Run a sequence of operations, concatenating the emitted bytes. -/
def runOps (st : WState) : List Op → WState × List Nat
  | [] => (st, [])
  | op :: rest =>
    let r := emit st op
    let r2 := runOps r.1 rest
    (r2.1, r.2 ++ r2.2)

/-- `json_writer(sout, indent)`: `level_ = 0`, `sep_status_ = none`. -/
def initW (indent : Nat) : WState := ⟨indent, 0, SepStatus.none⟩

-- ### Basic facts used across the file

theorem ws_loop_flush (s : List Nat) :
    ∀ pending, ws_loop pending s = pending ++ ws_loop [] s := by
  induction s with
  | nil => intro pending; simp [ws_loop]
  | cons c rest ih =>
    intro pending
    by_cases h1 : c = cQuote ∨ c = cBackslash
    · simp [ws_loop, h1]
    · by_cases h2 : c ≤ 31 ∨ c = 127
      · simp [ws_loop, h1, h2]
      · simp only [ws_loop, if_neg h1, if_neg h2, List.nil_append]
        rw [ih (pending ++ [c]), ih [c]]
        simp

/-- Per-byte classification the scanning loop implements (the run pointer
only changes the chunking of the sink writes, not the bytes emitted). -/
def encByte (c : Nat) : List Nat :=
  if c = cQuote ∨ c = cBackslash then [cBackslash, c]
  else if c ≤ 31 ∨ c = 127 then ctrlEsc c
  else [c]

theorem ws_loop_eq_flatMap (s : List Nat) : ws_loop [] s = s.flatMap encByte := by
  induction s with
  | nil => simp [ws_loop]
  | cons c rest ih =>
    by_cases h1 : c = cQuote ∨ c = cBackslash
    · simp [ws_loop, h1, encByte, ih]
    · by_cases h2 : c ≤ 31 ∨ c = 127
      · simp [ws_loop, h1, h2, encByte, ih]
      · simp only [ws_loop, if_neg h1, if_neg h2, encByte, List.nil_append]
        rw [ws_loop_flush rest [c]]
        simp [h1, h2, ih, encByte]

-- ### C2: per-byte classification of the escaping routine

/-- A hex digit in the lowercase alphabet, written from the spec's
"two-hex-digit value of the byte" (independently of the `sHex` table). -/
def specHexDigit (n : Nat) : Nat := if n < 10 then 48 + n else 87 + n

/-- The per-byte classification exactly as claim C2 words it: backslash +
literal byte for quote/backslash; the five named two-character escapes;
`\u00XX` for every other byte ≤ 31 or = 127; all remaining bytes pass
through unchanged. -/
def spec_escape_byte (c : Nat) : List Nat :=
  if c = cQuote ∨ c = cBackslash then [cBackslash, c]
  else if c = 8 then [cBackslash, 98]
  else if c = 12 then [cBackslash, 102]
  else if c = 10 then [cBackslash, 110]
  else if c = 13 then [cBackslash, 114]
  else if c = 9 then [cBackslash, 116]
  else if c ≤ 31 ∨ c = 127 then
    [cBackslash, 117, 48, 48, specHexDigit (c / 16), specHexDigit (c % 16)]
  else [c]

theorem encByte_eq_spec_small : ∀ c < 128, encByte c = spec_escape_byte c := by decide

theorem encByte_eq_spec (c : Nat) : encByte c = spec_escape_byte c := by
  by_cases h : c < 128
  · exact encByte_eq_spec_small c h
  · unfold encByte spec_escape_byte ctrlEsc
    split_ifs <;> first | rfl | omega

/-- C2: for every byte of the input range, `write_string` emits backslash +
literal byte for the quote and backslash bytes, the two-character escapes
`\b`, `\f`, `\n`, `\r`, `\t` for those five control bytes, the six-character
form `\u00XX` for every other byte ≤ 31 or = 127, and passes every remaining
byte through unchanged, all between one opening and one closing quote. -/
theorem claim_C2 (s : List Nat) :
    write_string s = [cQuote] ++ s.flatMap spec_escape_byte ++ [cQuote] := by
  unfold write_string
  rw [ws_loop_eq_flatMap]
  have h : encByte = spec_escape_byte := funext encByte_eq_spec
  rw [h]

-- ### C3: the separator-and-indent prefix

/-- C3: the separator-and-indent prefix emits a comma iff the status is
`next` (after-value), followed by a newline and exactly
`nesting level × indent width` spaces iff the indent width is positive and
the status is not `none`; otherwise nothing. -/
theorem claim_C3 (st : WState) (h : 0 ≤ st.level) :
    valueSepOut st =
      (if st.sep = SepStatus.next then [cValueSep] else []) ++
        (if 0 < st.indent ∧ st.sep ≠ SepStatus.none then
          [10] ++ List.replicate (st.level.toNat * st.indent) 32
        else []) := by
  unfold valueSepOut indentOut
  congr 1
  have hcond : (st.indent ≠ 0 ∧ st.sep ≠ SepStatus.none) ↔
      (0 < st.indent ∧ st.sep ≠ SepStatus.none) := by
    constructor <;> (rintro ⟨h1, h2⟩; exact ⟨by omega, h2⟩)
  by_cases hc : 0 < st.indent ∧ st.sep ≠ SepStatus.none
  · rw [if_pos (hcond.mpr hc), if_pos hc]
    congr 2
    lift st.level to ℕ using h with n hn
    rw [← Nat.cast_mul, Int.toNat_natCast, Int.toNat_natCast]
  · rw [if_neg (fun hh => hc (hcond.mp hh)), if_neg hc]

theorem claim_C3_witness :
    valueSepOut ⟨2, 1, SepStatus.next⟩ = [cValueSep, 10, 32, 32] := by
  have h := claim_C3 ⟨2, 1, SepStatus.next⟩ (by decide)
  simpa using h

-- ### C4: write-name

/-- C4: `name` emits the separator-and-indent prefix, the escaped quoted
name, then `": "` when the indent width is positive and `":"` when it is 0,
and leaves the separator status `none` (level and indent unchanged). -/
theorem claim_C4 (st : WState) (s : List Nat) :
    name_range st s =
      (⟨st.indent, st.level, SepStatus.none⟩,
        valueSepOut st ++ write_string s ++
          (if 0 < st.indent then [58, 32] else [58])) := by
  unfold name_range sNameSep
  split_ifs with h1 h2 h2 <;> first | rfl | omega

-- ### C7: concrete scenario `{"a":1,"b":true}`

/-- C7: with indent width 0, object-start, name "a", value 1, name "b",
bool true, object-end produce exactly `{"a":1,"b":true}`. -/
theorem claim_C7 :
    (runOps (initW 0) [Op.objectStart, Op.name [97], Op.valueInt 1,
      Op.name [98], Op.valueBool true, Op.objectEnd]).2 =
      [123, 34, 97, 34, 58, 49, 44, 34, 98, 34, 58, 116, 114, 117, 101, 125] := by
  decide

-- ### C8: empty object (corrected: only at indent width 0)

theorem claim_C8_counterexample :
    (runOps (initW 2) [Op.objectStart, Op.objectEnd]).2 = [cObjStart, 10, cObjEnd] ∧
      (runOps (initW 2) [Op.objectStart, Op.objectEnd]).2 ≠ [cObjStart, cObjEnd] := by
  decide

/-- C8 (amended): on an encoder with indent width 0, object-start followed
immediately by object-end emits exactly `{}`; with indent width N > 0 a
single newline (and zero indentation spaces, and no comma) stands between
the braces, because the `first` status suppresses the comma but not the
newline of `indent()`. -/
theorem claim_C8 (N : Nat) :
    (runOps (initW N) [Op.objectStart, Op.objectEnd]).2 =
      [cObjStart] ++ (if N = 0 then [] else [10]) ++ [cObjEnd] := by
  by_cases h : N = 0 <;>
    simp [runOps, emit, object_start, object_end, initW, valueSepOut, indentOut, h]

-- ### C9: overloads reduce to the byte-range calls

theorem strz_range_append (c : List Nat) (h : (0 : Nat) ∉ c) :
    strz_range (c ++ [0]) = c := by
  induction c with
  | nil => simp [strz_range]
  | cons a c ih =>
    have ha : a ≠ 0 := fun hh => h (by simp [hh])
    have hc : (0 : Nat) ∉ c := fun hh => h (by simp [hh])
    have hrec := ih hc
    unfold strz_range at hrec ⊢
    simp only [ne_eq, decide_not] at hrec ⊢
    simp [List.takeWhile, ha, hrec]

/-- C9: the null-terminated overloads applied to a NUL-terminated buffer,
and the container overloads applied to a typed string, produce exactly the
byte-range overloads' result on the equivalent byte range. -/
theorem claim_C9 (st : WState) (c : List Nat) (h : (0 : Nat) ∉ c) :
    name_strz st (c ++ [0]) = name_range st c ∧
      value_strz st (c ++ [0]) = value_range st c ∧
      name_string st c = name_range st c ∧
      value_string st c = value_range st c := by
  refine ⟨?_, ?_, rfl, rfl⟩ <;>
    simp [name_strz, value_strz, strz_range_append c h]

theorem claim_C9_witness :
    name_strz (initW 0) [97, 0] = name_range (initW 0) [97] ∧
      value_strz (initW 0) [97, 0] = value_range (initW 0) [97] ∧
      name_string (initW 0) [97] = name_range (initW 0) [97] ∧
      value_string (initW 0) [97] = value_range (initW 0) [97] := by
  exact claim_C9 (initW 0) [97] (by decide)

-- ### C10: the empty byte range as a value

/-- C10: for the empty range, `value` emits the separator-and-indent prefix
then exactly an opening and a closing quote, and sets the status to
after-value. -/
theorem claim_C10 (st : WState) :
    value_range st [] =
      (⟨st.indent, st.level, SepStatus.next⟩,
        valueSepOut st ++ [cQuote, cQuote]) := by
  simp [value_range, write_string, ws_loop]

-- ### C1: round trip through a standards-conforming decoder

/-- Modelled from the spec: the numeric value of one hexadecimal digit as
read by a standards-conforming JSON decoder (`0-9`, `a-f`, `A-F`). -/
def hexVal (c : Nat) : Option Nat :=
  if 48 ≤ c ∧ c ≤ 57 then some (c - 48)
  else if 97 ≤ c ∧ c ≤ 102 then some (c - 87)
  else if 65 ≤ c ∧ c ≤ 70 then some (c - 55)
  else none

/-- Modelled from the spec: the UTF-8 byte encoding of a code point, as a
standards-conforming decoder working at byte level produces it for a
`\uXXXX` escape (surrogate halves and values above `0xFFFF` are not
decoded here; the encoder under verification only ever emits `\u00XX`
with `XX ≤ 0x7F`, a single byte). -/
def utf8Bytes (n : Nat) : Option (List Nat) :=
  if n < 128 then some [n]
  else if n < 2048 then some [192 + n / 64, 128 + n % 64]
  else if 55296 ≤ n ∧ n ≤ 57343 then none
  else if n < 65536 then some [224 + n / 4096, 128 + n / 64 % 64, 128 + n % 64]
  else none

/-- Modelled from the spec: a standards-conforming JSON string-body decoder
(RFC 8259 §7) at byte level.  Reads bytes up to an unescaped closing quote,
which must end the input; resolves the short escapes and `\uXXXX`; rejects
unescaped control bytes ≤ 31 and stray backslashes; passes every other
byte through. -/
def decode_body : List Nat → Option (List Nat)
  | [] => none
  | c :: rest =>
    if c = cQuote then (if rest = [] then some [] else none)
    else if c = cBackslash then
      match rest with
      | [] => none
      | e :: rest2 =>
        if e = cQuote ∨ e = cBackslash ∨ e = 47 then (decode_body rest2).map (fun l => e :: l)
        else if e = 98 then (decode_body rest2).map (fun l => 8 :: l)
        else if e = 102 then (decode_body rest2).map (fun l => 12 :: l)
        else if e = 110 then (decode_body rest2).map (fun l => 10 :: l)
        else if e = 114 then (decode_body rest2).map (fun l => 13 :: l)
        else if e = 116 then (decode_body rest2).map (fun l => 9 :: l)
        else if e = 117 then
          match rest2 with
          | d1 :: d2 :: d3 :: d4 :: rest3 =>
            match hexVal d1, hexVal d2, hexVal d3, hexVal d4 with
            | some a, some b, some x, some y =>
              match utf8Bytes (4096 * a + 256 * b + 16 * x + y) with
              | some bs => (decode_body rest3).map (fun l => bs ++ l)
              | none => none
            | _, _, _, _ => none
          | _ => none
        else none
    else if c ≤ 31 then none
    else (decode_body rest).map (fun l => c :: l)

/-- Modelled from the spec: decode a full quoted literal — an opening
quote, then the body up to the closing quote. -/
def json_decode_string (s : List Nat) : Option (List Nat) :=
  match s with
  | c :: rest => if c = cQuote then decode_body rest else none
  | [] => none

theorem hex_rt : ∀ x < 128,
    hexVal (num_to_hex ((x >>> 4) &&& 15)) = some ((x >>> 4) &&& 15) ∧
      hexVal (num_to_hex (x &&& 15)) = some (x &&& 15) ∧
      16 * ((x >>> 4) &&& 15) + (x &&& 15) = x := by decide

theorem decode_body_unicode (d1 d2 x y : Nat) (tail : List Nat)
    (h1 : hexVal d1 = some x) (h2 : hexVal d2 = some y) (hlt : 16 * x + y < 128) :
    decode_body (92 :: 117 :: 48 :: 48 :: d1 :: d2 :: tail) =
      (decode_body tail).map (fun l => (16 * x + y) :: l) := by
  have h48 : hexVal 48 = some 0 := by decide
  have hu : utf8Bytes (4096 * 0 + 256 * 0 + 16 * x + y) = some [16 * x + y] := by
    have he : 4096 * 0 + 256 * 0 + 16 * x + y = 16 * x + y := by ring
    rw [he]
    simp [utf8Bytes, hlt]
  rw [decode_body.eq_def]
  simp only [cQuote, cBackslash]
  norm_num
  rw [h48, h1, h2]
  simp only [hu]
  cases decode_body tail <;> simp

theorem decode_encByte (c : Nat) (tail : List Nat) :
    decode_body (encByte c ++ tail) = (decode_body tail).map (fun l => c :: l) := by
  by_cases h1 : c = cQuote ∨ c = cBackslash
  · rcases h1 with h1 | h1 <;> subst h1 <;>
      (rw [encByte, decode_body.eq_def]; simp [cQuote, cBackslash])
  · by_cases h2 : c ≤ 31 ∨ c = 127
    · have hsmall : c < 128 := by rcases h2 with h | h <;> omega
      have hne34 : c ≠ 34 := fun hh => h1 (Or.inl hh)
      have hne92 : c ≠ 92 := fun hh => h1 (Or.inr hh)
      by_cases hc8 : c = 8
      · subst hc8; rw [encByte, decode_body.eq_def]; simp [cQuote, cBackslash, ctrlEsc]
      · by_cases hc12 : c = 12
        · subst hc12; rw [encByte, decode_body.eq_def]; simp [cQuote, cBackslash, ctrlEsc]
        · by_cases hc10 : c = 10
          · subst hc10; rw [encByte, decode_body.eq_def]; simp [cQuote, cBackslash, ctrlEsc]
          · by_cases hc13 : c = 13
            · subst hc13; rw [encByte, decode_body.eq_def]; simp [cQuote, cBackslash, ctrlEsc]
            · by_cases hc9 : c = 9
              · subst hc9; rw [encByte, decode_body.eq_def]; simp [cQuote, cBackslash, ctrlEsc]
              · obtain ⟨hd1, hd2, hsum⟩ := hex_rt c hsmall
                have hshape : encByte c ++ tail =
                    92 :: 117 :: 48 :: 48 :: num_to_hex ((c >>> 4) &&& 15) ::
                      num_to_hex (c &&& 15) :: tail := by
                  simp [encByte, cQuote, cBackslash, hne34, hne92, h2, ctrlEsc, hc8, hc12,
                    hc10, hc13, hc9, sUnicodeEsc]
                rw [hshape,
                  decode_body_unicode _ _ _ _ tail hd1 hd2 (by rw [hsum]; exact hsmall)]
                rw [hsum]
    · have hne34 : c ≠ 34 := fun hh => h1 (Or.inl hh)
      have hne92 : c ≠ 92 := fun hh => h1 (Or.inr hh)
      have hgt : ¬ c ≤ 31 := fun hh => h2 (Or.inl hh)
      have hne127 : c ≠ 127 := fun hh => h2 (Or.inr hh)
      have hshape : encByte c ++ tail = c :: tail := by
        simp [encByte, cQuote, cBackslash, hne34, hne92, hgt, hne127]
      rw [hshape, decode_body.eq_def]
      simp [hne34, hne92, hgt, cQuote, cBackslash]

theorem decode_ws (s : List Nat) : decode_body (ws_loop [] s ++ [cQuote]) = some s := by
  rw [ws_loop_eq_flatMap]
  induction s with
  | nil =>
    rw [List.flatMap_nil, List.nil_append, decode_body.eq_def]
    simp [cQuote]
  | cons c rest ih =>
    simp only [List.flatMap_cons, List.append_assoc]
    rw [decode_encByte c, ih]
    rfl

/-- C1: for every input byte sequence that contains a control byte ≤ 31,
byte 127, the quote, or the backslash, decoding the quoted literal produced
by `write_string` with a standards-conforming decoder reproduces the
original byte sequence exactly. -/
theorem claim_C1 (s : List Nat) (hbytes : ∀ b ∈ s, b < 256)
    (hspecial : ∃ b ∈ s, b ≤ 31 ∨ b = 127 ∨ b = cQuote ∨ b = cBackslash) :
    json_decode_string (write_string s) = some s := by
  unfold write_string json_decode_string
  simp [decode_ws s]

theorem claim_C1_witness :
    json_decode_string (write_string [9, 34, 0, 92, 127, 200]) =
      some [9, 34, 0, 92, 127, 200] := by
  exact claim_C1 [9, 34, 0, 92, 127, 200] (by decide) (by decide)

-- ### C5: indent width 0 output has no newline and no space

/-- The change an operation makes to the nesting level. -/
def levelDelta : Op → Int
  | Op.arrayStart => 1
  | Op.objectStart => 1
  | Op.arrayEnd => -1
  | Op.objectEnd => -1
  | _ => 0

/-- Balance check for a call sequence: the running count of open containers
never drops below zero and returns to zero at the end. -/
def balGo (l : Int) : List Op → Bool
  | [] => decide (l = 0)
  | op :: rest => decide (0 ≤ l + levelDelta op) && balGo (l + levelDelta op) rest

/-- A sequence of calls is balanced when every end matches an open and all
containers are closed. -/
def isBalanced (ops : List Op) : Bool := balGo 0 ops

/-- The four container-delimiter operations. -/
def isContainerOp : Op → Bool
  | Op.arrayStart => true
  | Op.arrayEnd => true
  | Op.objectStart => true
  | Op.objectEnd => true
  | _ => false

theorem emit_indent (st : WState) (op : Op) : (emit st op).1.indent = st.indent := by
  cases op <;> rfl

theorem runOps_indent0_bytes (ops : List Op) :
    ∀ st, st.indent = 0 → (∀ op ∈ ops, isContainerOp op = true) →
      ∀ b ∈ (runOps st ops).2, b = 44 ∨ b = 91 ∨ b = 93 ∨ b = 123 ∨ b = 125 := by
  induction ops with
  | nil => intro st _ _ b hb; simp [runOps] at hb
  | cons op rest ih =>
    intro st hst hcont b hb
    have hop : isContainerOp op = true := hcont op (by simp)
    have hrest : ∀ o ∈ rest, isContainerOp o = true := fun o ho => hcont o (by simp [ho])
    have hind : (emit st op).1.indent = 0 := by rw [emit_indent]; exact hst
    simp only [runOps, List.mem_append] at hb
    rcases hb with hb | hb
    · have hio : indentOut st = [] := by simp [indentOut, hst]
      have hio2 : ∀ (l : Int) (sp : SepStatus), indentOut ⟨st.indent, l, sp⟩ = [] := by
        intro l sp; simp [indentOut, hst]
      by_cases hsep : st.sep = SepStatus.next <;>
        cases op <;> simp [isContainerOp] at hop <;>
          simp [emit, array_start, array_end, object_start, object_end,
            valueSepOut, hio, hio2, hsep, cValueSep, cArrStart, cArrEnd,
            cObjStart, cObjEnd] at hb <;> omega
    · exact ih (emit st op).1 hind hrest b hb

/-- C5: for every balanced sequence of the four container calls on an
encoder constructed with indent width 0, the output contains no newline
and no space. -/
theorem claim_C5 (ops : List Op) (hcont : ∀ op ∈ ops, isContainerOp op = true)
    (hbal : isBalanced ops = true) :
    10 ∉ (runOps (initW 0) ops).2 ∧ 32 ∉ (runOps (initW 0) ops).2 := by
  constructor <;> intro hmem <;>
    rcases runOps_indent0_bytes ops (initW 0) rfl hcont _ hmem with h | h | h | h | h <;> omega

theorem claim_C5_witness :
    10 ∉ (runOps (initW 0) [Op.arrayStart, Op.objectStart, Op.objectEnd, Op.arrayEnd]).2 ∧
      32 ∉ (runOps (initW 0) [Op.arrayStart, Op.objectStart, Op.objectEnd, Op.arrayEnd]).2 := by
  exact claim_C5 [Op.arrayStart, Op.objectStart, Op.objectEnd, Op.arrayEnd]
    (by decide) (by decide)

-- ### C6: pretty-printed line structure and comma placement

/-- The two container-close operations (the only ones that skip the comma
check: they call `indent()` directly, not `value_sep()`). -/
def isEnd : Op → Bool
  | Op.arrayEnd => true
  | Op.objectEnd => true
  | _ => false

/-- The separator status an operation leaves behind. -/
def statusAfter : Op → SepStatus
  | Op.arrayStart => SepStatus.first
  | Op.objectStart => SepStatus.first
  | Op.name _ => SepStatus.none
  | _ => SepStatus.next

/-- Operations that complete an element of the enclosing container (a value
of any kind or a container close): exactly those after which a sibling
element would need a separating comma. -/
def completes : Op → Bool
  | Op.arrayStart => false
  | Op.objectStart => false
  | Op.name _ => false
  | _ => true

/-- The token text an operation contributes after its separator-and-indent
prefix (for a name this includes the name/value separator). -/
def tokText (N : Nat) : Op → List Nat
  | Op.arrayStart => [cArrStart]
  | Op.arrayEnd => [cArrEnd]
  | Op.objectStart => [cObjStart]
  | Op.objectEnd => [cObjEnd]
  | Op.name s => write_string s ++ sNameSep.take (if N ≠ 0 then 2 else 1)
  | Op.valueStr s => write_string s
  | Op.valueInt n => intDec n
  | Op.valueBool b => if b then [116, 114, 117, 101] else [102, 97, 108, 115, 101]
  | Op.valueNull => [110, 117, 108, 108]

theorem emit_state (st : WState) (op : Op) :
    (emit st op).1 = ⟨st.indent, st.level + levelDelta op, statusAfter op⟩ := by
  cases op <;>
    simp [emit, array_start, array_end, object_start, object_end, name_range,
      value_range, value_int, value_bool, value_null, levelDelta, statusAfter] <;>
    omega

/-- Structure of a single emission when pretty-printing (indent width ≠ 0):
an optional comma (only for non-close tokens after a value), an optional
newline with `level × N` spaces (whenever the status is not `none`; close
tokens use the already-decremented level), then the token text. -/
theorem emit_structure (N : Nat) (hN : N ≠ 0) (st : WState) (op : Op)
    (hind : st.indent = N) :
    (emit st op).2 =
      (if isEnd op = false ∧ st.sep = SepStatus.next then [cValueSep] else []) ++
        (if st.sep = SepStatus.none then []
          else [10] ++ List.replicate
            (((if isEnd op then st.level - 1 else st.level) * (N : Int)).toNat) 32) ++
        tokText N op := by
  obtain ⟨ind, lvl, sp⟩ := st
  simp only at hind
  subst hind
  cases op <;>
    cases sp <;>
      simp [emit, array_start, array_end, object_start, object_end, name_range,
        value_range, value_int, value_bool, value_null, valueSepOut, indentOut,
        tokText, isEnd, hN, cValueSep]

/-- Reference line layout of a pretty-printed run: a list of
(depth, line body) pairs.  A new line opens exactly when `indent()` fires
(status not `none`); the depth recorded for the line is the level value
`indent()` uses for that token — the already-decremented level for a close
token, the current level otherwise.  A separator comma belongs to the end
of the previous line (the code emits it before the newline). -/
def linesGo (N : Nat) : Int → SepStatus → (Int × List Nat) → List Op → List (Int × List Nat)
  | _, _, cur, [] => [cur]
  | level, sep, cur, op :: rest =>
    if sep = SepStatus.none then
      linesGo N (level + levelDelta op) (statusAfter op)
        (cur.1, cur.2 ++ tokText N op) rest
    else
      (cur.1, cur.2 ++
          (if isEnd op = false ∧ sep = SepStatus.next then [cValueSep] else [])) ::
        linesGo N (level + levelDelta op) (statusAfter op)
          ((if isEnd op then level - 1 else level), tokText N op) rest

/-- Render one layout line: its indentation spaces then its body. -/
def rline (N : Nat) (p : Int × List Nat) : List Nat :=
  List.replicate ((p.1 * (N : Int)).toNat) 32 ++ p.2

/-- Join rendered lines with single newline bytes. -/
def renderLines (N : Nat) : List (Int × List Nat) → List Nat
  | [] => []
  | [p] => rline N p
  | p :: q :: rest => rline N p ++ 10 :: renderLines N (q :: rest)

/-- Split a byte list at newline bytes (the resulting chunks are the lines;
a trailing newline yields a final empty line). -/
def splitNl : List Nat → List (List Nat)
  | [] => [[]]
  | c :: rest =>
    if c = 10 then [] :: splitNl rest
    else
      match splitNl rest with
      | [] => [[c]]
      | l :: ls => (c :: l) :: ls

/-- Number of leading space bytes of a line. -/
def leadingSpaces (l : List Nat) : Nat := (l.takeWhile (fun b => b = 32)).length

theorem linesGo_ne_nil (N : Nat) (ops : List Op) :
    ∀ level sep cur, linesGo N level sep cur ops ≠ [] := by
  induction ops with
  | nil => intro level sep cur; simp [linesGo]
  | cons op rest ih =>
    intro level sep cur
    by_cases h : sep = SepStatus.none <;> simp [linesGo, h]
    exact ih _ _ _

theorem renderLines_cons (N : Nat) (p : Int × List Nat) (ls : List (Int × List Nat))
    (h : ls ≠ []) : renderLines N (p :: ls) = rline N p ++ 10 :: renderLines N ls := by
  cases ls with
  | nil => exact absurd rfl h
  | cons q rest => rfl

-- byte-range facts about the token texts

theorem num_to_hex_ge (d : Nat) (h : d < 16) : 48 ≤ num_to_hex d ∧ num_to_hex d ≤ 102 := by
  revert d h; decide

theorem encByte_bytes (c : Nat) : ∀ b ∈ encByte c, b ≠ 10 := by
  intro b hb
  unfold encByte at hb
  split at hb
  · rename_i h; rcases h with h | h <;> subst h <;>
      simp [cQuote, cBackslash] at hb <;> omega
  · split at hb
    · unfold ctrlEsc at hb
      have h4 : (c >>> 4) &&& 15 < 16 := Nat.lt_succ_of_le (Nat.and_le_right)
      have h5 : c &&& 15 < 16 := Nat.lt_succ_of_le (Nat.and_le_right)
      obtain ⟨ha1, ha2⟩ := num_to_hex_ge _ h4
      obtain ⟨hb1, hb2⟩ := num_to_hex_ge _ h5
      split_ifs at hb <;> simp [cBackslash, sUnicodeEsc] at hb <;> omega
    · rename_i h1 h2
      simp at hb
      subst hb
      have hgt : ¬ b ≤ 31 := fun hh => h2 (Or.inl hh)
      omega

theorem write_string_bytes (s : List Nat) :
    ∀ b ∈ write_string s, b ≠ 10 := by
  intro b hb
  unfold write_string at hb
  rw [ws_loop_eq_flatMap] at hb
  simp only [List.mem_append, List.mem_singleton, List.mem_cons, List.mem_flatMap,
    List.nil_append, List.cons_append, List.not_mem_nil, or_false] at hb
  rcases hb with hb | ⟨c, _, hc⟩ | hb
  · subst hb; simp [cQuote]
  · exact encByte_bytes c b hc
  · subst hb; simp [cQuote]

theorem natDecGo_ge (fuel n : Nat) : ∀ b ∈ natDecGo fuel n, 48 ≤ b := by
  induction fuel generalizing n with
  | zero => intro b hb; simp [natDecGo] at hb; omega
  | succ fuel ih =>
    intro b hb
    unfold natDecGo at hb
    split at hb
    · simp at hb; omega
    · rcases List.mem_append.mp hb with hb | hb
      · exact ih _ b hb
      · simp at hb; omega

theorem intDec_bytes (n : Int) : ∀ b ∈ intDec n, 45 ≤ b := by
  intro b hb
  unfold intDec at hb
  split at hb
  · rcases List.mem_cons.mp hb with hb | hb
    · omega
    · have := natDecGo_ge _ _ b hb; omega
  · have := natDecGo_ge _ _ b hb; omega

theorem natDecGo_ne_nil (fuel n : Nat) : natDecGo fuel n ≠ [] := by
  cases fuel with
  | zero => simp [natDecGo]
  | succ fuel =>
    unfold natDecGo
    split <;> simp

theorem tokText_bytes (N : Nat) (op : Op) : ∀ b ∈ tokText N op, b ≠ 10 := by
  intro b hb
  cases op <;> simp only [tokText] at hb
  case arrayStart => simp [cArrStart] at hb; omega
  case arrayEnd => simp [cArrEnd] at hb; omega
  case objectStart => simp [cObjStart] at hb; omega
  case objectEnd => simp [cObjEnd] at hb; omega
  case name s =>
    rcases List.mem_append.mp hb with hb | hb
    · exact write_string_bytes s b hb
    · have : b ∈ sNameSep := List.mem_of_mem_take hb
      simp [sNameSep] at this
      omega
  case valueStr s => exact write_string_bytes s b hb
  case valueInt n => have := intDec_bytes n b hb; omega
  case valueBool bb => cases bb <;> simp at hb <;> omega
  case valueNull => simp at hb; omega

theorem tokText_head (N : Nat) (op : Op) :
    ∀ h, (tokText N op).head? = some h → h ≠ 32 ∧ h ≠ 44 ∧ h ≠ 10 := by
  intro h hh
  cases op
  case arrayStart => simp [tokText, cArrStart] at hh; omega
  case arrayEnd => simp [tokText, cArrEnd] at hh; omega
  case objectStart => simp [tokText, cObjStart] at hh; omega
  case objectEnd => simp [tokText, cObjEnd] at hh; omega
  case name s =>
    simp only [tokText, write_string, cQuote, List.cons_append, List.nil_append,
      List.head?_cons, Option.some.injEq] at hh
    omega
  case valueStr s =>
    simp only [tokText, write_string, cQuote, List.cons_append, List.nil_append,
      List.head?_cons, Option.some.injEq] at hh
    omega
  case valueInt n =>
    simp only [tokText] at hh
    have hmem : h ∈ intDec n := by
      cases hl : intDec n with
      | nil => rw [hl] at hh; simp at hh
      | cons a t => rw [hl] at hh; simp at hh; subst hh; simp
    have := intDec_bytes n h hmem
    omega
  case valueBool b => cases b <;> simp [tokText] at hh <;> omega
  case valueNull => simp [tokText] at hh; omega

theorem head_append_ne (a b : List Nat) (x : Nat)
    (ha : a.head? ≠ some x) (hb : b.head? ≠ some x) : (a ++ b).head? ≠ some x := by
  cases a <;> simp_all

theorem splitNl_no_nl (a : List Nat) (h : 10 ∉ a) : splitNl a = [a] := by
  induction a with
  | nil => rfl
  | cons c rest ih =>
    have hc : c ≠ 10 := fun hh => h (by simp [hh])
    have hrest : 10 ∉ rest := fun hh => h (by simp [hh])
    simp [splitNl, hc, ih hrest]

theorem splitNl_append (a b : List Nat) (h : 10 ∉ a) :
    splitNl (a ++ 10 :: b) = a :: splitNl b := by
  induction a with
  | nil => simp [splitNl]
  | cons c rest ih =>
    have hc : c ≠ 10 := fun hh => h (by simp [hh])
    have hrest : 10 ∉ rest := fun hh => h (by simp [hh])
    simp [splitNl, hc, ih hrest]

theorem rline_no_nl (N : Nat) (p : Int × List Nat) (h : 10 ∉ p.2) :
    10 ∉ rline N p := by
  intro hmem
  rcases List.mem_append.mp hmem with hm | hm
  · have := List.eq_of_mem_replicate hm; omega
  · exact h hm

theorem splitNl_renderLines (N : Nat) (L : List (Int × List Nat)) (hne : L ≠ [])
    (h : ∀ p ∈ L, 10 ∉ p.2) :
    splitNl (renderLines N L) = L.map (rline N) := by
  induction L with
  | nil => exact absurd rfl hne
  | cons p ls ih =>
    cases ls with
    | nil =>
      simp only [renderLines, List.map]
      exact splitNl_no_nl _ (rline_no_nl N p (h p (by simp)))
    | cons q rest =>
      rw [renderLines_cons N p (q :: rest) (by simp)]
      rw [splitNl_append _ _ (rline_no_nl N p (h p (by simp)))]
      rw [ih (by simp) (fun r hr => h r (by simp [hr]))]
      rfl

theorem runOps_cons (st : WState) (op : Op) (rest : List Op) :
    (runOps st (op :: rest)).2 = (emit st op).2 ++ (runOps (emit st op).1 rest).2 := rfl

theorem linesGo_no_nl (N : Nat) (ops : List Op) :
    ∀ level sep cur, 10 ∉ cur.2 →
      ∀ p ∈ linesGo N level sep cur ops, 10 ∉ p.2 := by
  induction ops with
  | nil =>
    intro level sep cur hcur p hp
    simp [linesGo] at hp
    subst hp; exact hcur
  | cons op rest ih =>
    intro level sep cur hcur p hp
    by_cases h : sep = SepStatus.none
    · simp only [linesGo, if_pos h] at hp
      refine ih _ _ _ ?_ p hp
      intro hmem
      rcases List.mem_append.mp hmem with hm | hm
      · exact hcur hm
      · exact tokText_bytes N op 10 hm rfl
    · simp only [linesGo, if_neg h, List.mem_cons] at hp
      rcases hp with hp | hp
      · subst hp
        intro hmem
        rcases List.mem_append.mp hmem with hm | hm
        · exact hcur hm
        · split at hm <;> simp [cValueSep] at hm
      · refine ih _ _ _ ?_ p hp
        intro hmem
        exact tokText_bytes N op 10 hmem rfl

theorem linesGo_head (N : Nat) (ops : List Op) :
    ∀ level sep cur, cur.2.head? ≠ some 32 →
      ∀ p ∈ linesGo N level sep cur ops, p.2.head? ≠ some 32 := by
  induction ops with
  | nil =>
    intro level sep cur hcur p hp
    simp [linesGo] at hp
    subst hp; exact hcur
  | cons op rest ih =>
    intro level sep cur hcur p hp
    have htok : (tokText N op).head? ≠ some 32 := by
      intro hh
      exact (tokText_head N op 32 hh).1 rfl
    by_cases h : sep = SepStatus.none
    · simp only [linesGo, if_pos h] at hp
      exact ih _ _ _ (head_append_ne _ _ _ hcur htok) p hp
    · simp only [linesGo, if_neg h, List.mem_cons] at hp
      rcases hp with hp | hp
      · subst hp
        refine head_append_ne _ _ _ hcur ?_
        split <;> simp [cValueSep]
      · exact ih _ _ _ htok p hp

theorem isEnd_delta (op : Op) :
    (isEnd op = true → levelDelta op = -1) ∧ (isEnd op = false → levelDelta op = 0 ∨ levelDelta op = 1) := by
  cases op <;> simp [isEnd, levelDelta]

theorem linesGo_depth (N : Nat) (ops : List Op) :
    ∀ level sep cur, 0 ≤ level → 0 ≤ cur.1 → balGo level ops = true →
      ∀ p ∈ linesGo N level sep cur ops, 0 ≤ p.1 := by
  induction ops with
  | nil =>
    intro level sep cur _ hcur _ p hp
    simp [linesGo] at hp
    subst hp; exact hcur
  | cons op rest ih =>
    intro level sep cur hlev hcur hbal p hp
    simp only [balGo, Bool.and_eq_true, decide_eq_true_eq] at hbal
    obtain ⟨hstep, hrest⟩ := hbal
    by_cases h : sep = SepStatus.none
    · simp only [linesGo, if_pos h] at hp
      exact ih (level + levelDelta op) (statusAfter op)
        (cur.1, cur.2 ++ tokText N op) hstep hcur hrest p hp
    · simp only [linesGo, if_neg h, List.mem_cons] at hp
      rcases hp with hp | hp
      · subst hp; exact hcur
      · refine ih _ _ _ hstep ?_ hrest p hp
        by_cases he : isEnd op
        · have := (isEnd_delta op).1 he
          simp only [he, if_true]
          omega
        · have := (isEnd_delta op).2 (by simpa using he)
          simp only [he, if_false]
          exact hlev

theorem render_linesGo (N : Nat) (hN : N ≠ 0) (ops : List Op) :
    ∀ (level : Int) (sep : SepStatus) (cur : Int × List Nat),
      renderLines N (linesGo N level sep cur ops) =
        List.replicate ((cur.1 * (N : Int)).toNat) 32 ++ cur.2 ++
          (runOps ⟨N, level, sep⟩ ops).2 := by
  induction ops with
  | nil =>
    intro level sep cur
    simp [linesGo, renderLines, rline, runOps]
  | cons op rest ih =>
    intro level sep cur
    rw [runOps_cons, emit_structure N hN ⟨N, level, sep⟩ op rfl, emit_state]
    by_cases h : sep = SepStatus.none
    · simp only [linesGo, if_pos h]
      rw [ih]
      subst h
      simp only [if_pos rfl]
      simp [levelDelta]
    · simp only [linesGo, if_neg h]
      rw [renderLines_cons _ _ _ (linesGo_ne_nil N rest _ _ _), ih]
      simp only [if_neg h, rline]
      simp

theorem leadingSpaces_replicate (k : Nat) (body : List Nat)
    (h : body.head? ≠ some 32) :
    leadingSpaces (List.replicate k 32 ++ body) = k := by
  induction k with
  | zero =>
    simp only [List.replicate, List.nil_append]
    cases body with
    | nil => rfl
    | cons a t =>
      have ha : a ≠ 32 := by intro hh; exact h (by simp [hh])
      simp [leadingSpaces, List.takeWhile, ha]
  | succ k ih =>
    have hrep : List.replicate (k + 1) 32 ++ body = 32 :: (List.replicate k 32 ++ body) := by
      simp [List.replicate]
    rw [hrep]
    unfold leadingSpaces at ih ⊢
    rw [List.takeWhile_cons]
    simp [ih]
    intro hl hc
    apply h
    have hhead : body.head? = some body[0] := by
      cases body with
      | nil => simp at hl
      | cons a t => rfl
    rw [hhead, hc]

theorem emit_sep (st : WState) (op : Op) : (emit st op).1.sep = statusAfter op := by
  rw [emit_state]

theorem runOps_state_indent (ops : List Op) :
    ∀ st, (runOps st ops).1.indent = st.indent := by
  induction ops with
  | nil => intro st; rfl
  | cons op rest ih =>
    intro st
    have : (runOps st (op :: rest)).1 = (runOps (emit st op).1 rest).1 := rfl
    rw [this, ih, emit_indent]

theorem runOps_state_append (a b : List Op) :
    ∀ st : WState, (runOps st (a ++ b)).1 = (runOps (runOps st a).1 b).1 := by
  induction a with
  | nil => intro st; rfl
  | cons op rest ih =>
    intro st
    have h1 : (runOps st ((op :: rest) ++ b)).1 = (runOps (emit st op).1 (rest ++ b)).1 := rfl
    have h2 : (runOps st (op :: rest)).1 = (runOps (emit st op).1 rest).1 := rfl
    rw [h1, ih, h2]

/-- The bytes emitted by the `i`-th call of a sequence run from a fresh
encoder with indent width `N`. -/
def emitAt (N : Nat) (ops : List Op) (i : Nat) : List Nat :=
  (emit (runOps (initW N) (ops.take i)).1 (ops.getD i Op.valueNull)).2

theorem runOps_take_sep (N : Nat) (ops : List Op) (i : Nat) (hi : i < ops.length) :
    (runOps (initW N) (ops.take i)).1.sep =
      if i = 0 then SepStatus.none
      else statusAfter (ops.getD (i - 1) Op.valueNull) := by
  cases i with
  | zero => rfl
  | succ j =>
    have hj : j < ops.length := by omega
    have hget : ops.getD j Op.valueNull = ops.get ⟨j, hj⟩ := by
      simp [List.getD, List.getElem?_eq_getElem hj]
    have htake : ops.take (j + 1) = ops.take j ++ [ops.get ⟨j, hj⟩] := by
      rw [List.take_succ]
      simp [List.getElem?_eq_getElem hj]
    rw [htake, runOps_state_append]
    have : (runOps (runOps (initW N) (ops.take j)).1 [ops.get ⟨j, hj⟩]).1 =
        (emit (runOps (initW N) (ops.take j)).1 (ops.get ⟨j, hj⟩)).1 := rfl
    rw [this, emit_sep]
    simp only [Nat.add_sub_cancel, if_neg (Nat.succ_ne_zero j)]
    rw [hget]

theorem statusAfter_completes (op : Op) :
    statusAfter op = SepStatus.next ↔ completes op = true := by
  cases op <;> simp [statusAfter, completes]

theorem emitAt_head (N : Nat) (hN : 0 < N) (ops : List Op) (i : Nat) (hi : i < ops.length) :
    ((emitAt N ops i).head? = some cValueSep ↔
      isEnd (ops.getD i Op.valueNull) = false ∧ 0 < i ∧
        completes (ops.getD (i - 1) Op.valueNull) = true) := by
  have hNne : N ≠ 0 := by omega
  set stI := (runOps (initW N) (ops.take i)).1 with hstI
  have hind : stI.indent = N := by
    rw [hstI, runOps_state_indent]
    rfl
  have hsep := runOps_take_sep N ops i hi
  rw [← hstI] at hsep
  set op := ops.getD i Op.valueNull with hop
  have hemit : emitAt N ops i = (emit stI op).2 := rfl
  rw [hemit, emit_structure N hNne stI op hind]
  have htokh : (tokText N op).head? ≠ some cValueSep := by
    intro hh
    exact (tokText_head N op cValueSep hh).2.1 (by simp [cValueSep])
  by_cases hend : isEnd op
  · -- close token: never a comma
    simp only [hend, Bool.true_eq_false, false_and, iff_false]
    rw [if_neg (by simp [hend])]
    by_cases hsn : stI.sep = SepStatus.none
    · rw [if_pos hsn]
      simpa using htokh
    · rw [if_neg hsn]
      simp [cValueSep]
  · have hendf : isEnd op = false := by simpa using hend
    by_cases hsn : stI.sep = SepStatus.next
    · -- comma emitted
      rw [if_pos ⟨hendf, hsn⟩]
      simp only [List.cons_append, List.head?_cons, Option.some.injEq, true_iff]
      refine ⟨hendf, ?_⟩
      rw [hsn] at hsep
      by_cases hi0 : i = 0
      · rw [if_pos hi0] at hsep; exact absurd hsep.symm (by simp)
      · rw [if_neg hi0] at hsep
        exact ⟨by omega, (statusAfter_completes _).mp hsep.symm⟩
    · -- no comma
      rw [if_neg (by intro hh; exact hsn hh.2)]
      have hlhs : ((if stI.sep = SepStatus.none then []
          else [10] ++ List.replicate
            (((if isEnd op then stI.level - 1 else stI.level) * (N : Int)).toNat) 32) ++
          tokText N op).head? ≠ some cValueSep := by
        by_cases hsnone : stI.sep = SepStatus.none
        · rw [if_pos hsnone]
          simpa using htokh
        · rw [if_neg hsnone]
          simp [cValueSep]
      simp only [List.nil_append]
      constructor
      · intro hh
        exact absurd hh hlhs
      · rintro ⟨-, hi0, hcomp⟩
        exfalso
        rw [if_neg (by omega : ¬ i = 0)] at hsep
        exact hsn (by rw [hsep]; exact (statusAfter_completes _).mpr hcomp)

/-- C6: for every balanced call sequence on an encoder with indent width
N > 0: (a) the output splits at newlines into exactly the reference layout's
lines, (b) each line carries exactly N × (the nesting depth at which its
token was emitted — the depth `linesGo` records) leading spaces, and
(c) the bytes emitted for call `i` begin with a separating comma exactly
when that call is not a container close and the previous call completed a
sibling element (a value or a container close) — so consecutive siblings
get exactly one comma and no comma precedes a closing delimiter. -/
theorem claim_C6 (N : Nat) (ops : List Op) (hN : 0 < N) (hbal : isBalanced ops = true) :
    splitNl (runOps (initW N) ops).2 =
        (linesGo N 0 SepStatus.none (0, []) ops).map (rline N) ∧
      (∀ p ∈ linesGo N 0 SepStatus.none (0, []) ops,
        0 ≤ p.1 ∧ leadingSpaces (rline N p) = p.1.toNat * N) ∧
      (∀ i, i < ops.length →
        ((emitAt N ops i).head? = some cValueSep ↔
          isEnd (ops.getD i Op.valueNull) = false ∧ 0 < i ∧
            completes (ops.getD (i - 1) Op.valueNull) = true)) := by
  have hNne : N ≠ 0 := by omega
  have hout : (runOps (initW N) ops).2 =
      renderLines N (linesGo N 0 SepStatus.none (0, []) ops) := by
    rw [render_linesGo N hNne ops 0 SepStatus.none (0, [])]
    simp [initW]
  refine ⟨?_, ?_, ?_⟩
  · rw [hout]
    apply splitNl_renderLines N _ (linesGo_ne_nil N ops _ _ _)
    exact linesGo_no_nl N ops 0 SepStatus.none (0, []) (by simp)
  · intro p hp
    have hd : 0 ≤ p.1 :=
      linesGo_depth N ops 0 SepStatus.none (0, []) (by omega) (by simp) hbal p hp
    have hh : p.2.head? ≠ some 32 :=
      linesGo_head N ops 0 SepStatus.none (0, []) (by simp) p hp
    refine ⟨hd, ?_⟩
    unfold rline
    rw [leadingSpaces_replicate _ _ hh]
    obtain ⟨m, hm⟩ := Int.eq_ofNat_of_zero_le hd
    rw [hm, ← Nat.cast_mul, Int.toNat_natCast, Int.toNat_natCast]
  · intro i hi
    exact emitAt_head N hN ops i hi

theorem claim_C6_witness :
    splitNl (runOps (initW 2) [Op.objectStart, Op.name [107], Op.objectStart,
        Op.name [110], Op.valueInt 1, Op.objectEnd, Op.objectEnd]).2 =
        (linesGo 2 0 SepStatus.none (0, []) [Op.objectStart, Op.name [107], Op.objectStart,
          Op.name [110], Op.valueInt 1, Op.objectEnd, Op.objectEnd]).map (rline 2) ∧
      (∀ p ∈ linesGo 2 0 SepStatus.none (0, []) [Op.objectStart, Op.name [107], Op.objectStart,
          Op.name [110], Op.valueInt 1, Op.objectEnd, Op.objectEnd],
        0 ≤ p.1 ∧ leadingSpaces (rline 2 p) = p.1.toNat * 2) ∧
      (∀ i, i < ([Op.objectStart, Op.name [107], Op.objectStart,
          Op.name [110], Op.valueInt 1, Op.objectEnd, Op.objectEnd] : List Op).length →
        ((emitAt 2 [Op.objectStart, Op.name [107], Op.objectStart,
            Op.name [110], Op.valueInt 1, Op.objectEnd, Op.objectEnd] i).head? = some cValueSep ↔
          isEnd (([Op.objectStart, Op.name [107], Op.objectStart,
            Op.name [110], Op.valueInt 1, Op.objectEnd, Op.objectEnd] : List Op).getD i
              Op.valueNull) = false ∧ 0 < i ∧
            completes (([Op.objectStart, Op.name [107], Op.objectStart,
              Op.name [110], Op.valueInt 1, Op.objectEnd, Op.objectEnd] : List Op).getD (i - 1)
                Op.valueNull) = true)) := by
  exact claim_C6 2 [Op.objectStart, Op.name [107], Op.objectStart,
    Op.name [110], Op.valueInt 1, Op.objectEnd, Op.objectEnd] (by decide) (by decide)
